import Mathlib

/-!
Shallow embedding of the statistical engine of `geoloc.c` (feature-based
geolocation on an equirectangular grid) together with theorems checking the
natural-language specification against it.

Modelling conventions:
* C `double` values are modelled as exact rationals (`ℚ`);
* calls into `libm` are kept as explicit function parameters: the classifier
  takes the logarithm as a parameter `lg : ℚ → ℚ`, the kernel-density code
  takes the bivariate Gaussian pdf as a parameter `pdf` with the same seven
  arguments as `bivariate_gaussian_pdf` in the source;
* machine integers are `ℤ`/`ℕ`; the `(short int)` casts of the sparse-matrix
  encoder wrap explicitly;
* dense matrices (`double *` of `g_longranularity * g_latgranularity` cells)
  are functions `ℕ → ℚ`, read and written at indices `x + y * L` exactly as
  the source does;
* word/feature identity is an arbitrary type with decidable equality, and the
  word hash is modelled as the finite map it implements.
-/

/-- The C cast `(int)` of a `double`: truncation toward zero. -/
def c_int (q : ℚ) : ℤ := if 0 ≤ q then ⌊q⌋ else ⌈q⌉

/-- Total number of grid cells `g_longranularity * g_latgranularity`, where
`g_latgranularity = g_longranularity / 2` (integer division, as in the
source's global initialization). -/
def cells (L : ℕ) : ℕ := L * (L / 2)

/-- Macro `LONTOX(LON) = (int)(L/360.0 * (LON + 180.0))`. -/
def lontox (L : ℕ) (lon : ℚ) : ℤ := c_int ((L : ℚ) / 360 * (lon + 180))

/-- Macro `LATTOY(LAT) = (int)(L/360.0 * (LAT + 90.0))`. -/
def lattoy (L : ℕ) (lat : ℚ) : ℤ := c_int ((L : ℚ) / 360 * (lat + 90))

/-- Macro `XTOMIDLON(X) = X * 360/L - 180 + (360/L)/2`. -/
def xtomidlon (L : ℕ) (x : ℤ) : ℚ := (x : ℚ) * (360 / (L : ℚ)) - 180 + (360 / (L : ℚ)) / 2

/-- Macro `YTOMIDLAT(Y) = Y * 360/L - 90 + (360/L)/2`. -/
def ytomidlat (L : ℕ) (y : ℤ) : ℚ := (y : ℚ) * (360 / (L : ℚ)) - 90 + (360 / (L : ℚ)) / 2

/-- Macro `CELLTOX(CELL) = CELL % L`. -/
def celltox (L : ℕ) (c : ℕ) : ℕ := c % L

/-- Macro `CELLTOY(CELL) = CELL / L`. -/
def celltoy (L : ℕ) (c : ℕ) : ℕ := c / L

lemma c_int_of_nonneg {q : ℚ} (h : 0 ≤ q) : c_int q = ⌊q⌋ := if_pos h

/-- For `0 ≤ u` the cell midpoint reconstructed from `⌊L/360 * u⌋` is within
`180/L` of `u`; shared kernel of the longitude and latitude bounds. -/
lemma floor_mid_close (L : ℕ) (hL : 0 < L) (u : ℚ) (hu : 0 ≤ u) :
    |((⌊(L : ℚ) / 360 * u⌋ : ℤ) : ℚ) * (360 / (L : ℚ)) + (360 / (L : ℚ)) / 2 - u| ≤
      180 / (L : ℚ) := by
  have hL' : (0 : ℚ) < L := by exact_mod_cast hL
  set t : ℚ := (L : ℚ) / 360 * u with ht
  have h1 : ((⌊t⌋ : ℤ) : ℚ) ≤ t := Int.floor_le t
  have h2 : t - 1 < ((⌊t⌋ : ℤ) : ℚ) := Int.sub_one_lt_floor t
  have hδ : 0 < 360 / (L : ℚ) := by positivity
  have hut : t * (360 / (L : ℚ)) = u := by
    rw [ht]; field_simp
  have hlow : (-1 : ℚ) * (360 / (L : ℚ)) < (((⌊t⌋ : ℤ) : ℚ) - t) * (360 / (L : ℚ)) :=
    mul_lt_mul_of_pos_right (by linarith) hδ
  have hhigh : (((⌊t⌋ : ℤ) : ℚ) - t) * (360 / (L : ℚ)) ≤ 0 :=
    mul_nonpos_of_nonpos_of_nonneg (by linarith) (le_of_lt hδ)
  have h180 : 180 / (L : ℚ) = 360 / (L : ℚ) / 2 := by ring
  rw [abs_le, h180]
  constructor
  · nlinarith [hlow, hhigh, hut]
  · nlinarith [hlow, hhigh, hut]

/-- C6: for every latitude in `[-90, 90)` and longitude in `[-180, 180)` and
every even positive grid size `L`, the midpoint of the cell the coordinate
maps to is within `δ/2 = 180/L` degrees of the input coordinate. -/
theorem grid_midpoint_within_half_delta (L : ℕ) (lat lon : ℚ)
    (hL : 0 < L) (hLeven : L % 2 = 0)
    (hlat0 : -90 ≤ lat) (hlat1 : lat < 90)
    (hlon0 : -180 ≤ lon) (hlon1 : lon < 180) :
    |ytomidlat L (lattoy L lat) - lat| ≤ 180 / (L : ℚ) ∧
    |xtomidlon L (lontox L lon) - lon| ≤ 180 / (L : ℚ) := by
  constructor
  · have hu : (0 : ℚ) ≤ lat + 90 := by linarith
    have harg : (0 : ℚ) ≤ (L : ℚ) / 360 * (lat + 90) := by positivity
    have := floor_mid_close L hL (lat + 90) hu
    rw [lattoy, c_int_of_nonneg harg, ytomidlat]
    convert this using 2
    ring
  · have hu : (0 : ℚ) ≤ lon + 180 := by linarith
    have harg : (0 : ℚ) ≤ (L : ℚ) / 360 * (lon + 180) := by positivity
    have := floor_mid_close L hL (lon + 180) hu
    rw [lontox, c_int_of_nonneg harg, xtomidlon]
    convert this using 2
    ring

/-- Witness for C6 at `L = 72`, `lat = 40`, `lon = -74`. -/
theorem grid_midpoint_within_half_delta_witness :
    |ytomidlat 72 (lattoy 72 40) - 40| ≤ 180 / (72 : ℚ) ∧
    |xtomidlon 72 (lontox 72 (-74)) - (-74)| ≤ 180 / (72 : ℚ) :=
  grid_midpoint_within_half_delta 72 40 (-74) (by norm_num) (by norm_num)
    (by norm_num) (by norm_num) (by norm_num) (by norm_num)

/-- One entry of `struct sparsematrix`: fields `x`, `y` are `short int`, the
`value` is a stored matrix entry (modelled exactly). -/
structure sparsematrix where
  x : ℤ
  y : ℤ
  value : ℚ
deriving DecidableEq

/-- The C cast `(short int)` of an `int`: wrap into `[-32768, 32767]`. -/
def short_int (n : ℤ) : ℤ := (n + 32768) % 65536 - 32768

/-- Effect of the assignment `matrix[x + y*L] = v` on a dense matrix. -/
def matrix_write (L : ℕ) (m : ℕ → ℚ) (x y : ℤ) (v : ℚ) : ℕ → ℚ :=
  fun c => if (c : ℤ) = x + y * (L : ℤ) then v else m c

/-- The decoder loop of `sparsematrix_to_matrix`: scatter triples into the
accumulated dense matrix, stopping at the first triple whose `x` is `-1`. -/
def sparsematrix_scan (L : ℕ) : List sparsematrix → (ℕ → ℚ) → (ℕ → ℚ)
  | [], m => m
  | t :: rest, m =>
      if t.x = -1 then m
      else sparsematrix_scan L rest (matrix_write L m t.x t.y t.value)

/-- `sparsematrix_to_matrix`: allocate a zeroed dense matrix and scatter the
triples of the sparse encoding into it. -/
def sparsematrix_to_matrix (L : ℕ) (sm : List sparsematrix) : ℕ → ℚ :=
  sparsematrix_scan L sm (fun _ => 0)

/-- Sentinel-free scatter of a whole triple list (the decoder's behaviour on
a list that contains no `x = -1` entry). -/
def sparsematrix_scatter (L : ℕ) : List sparsematrix → (ℕ → ℚ) → (ℕ → ℚ)
  | [], m => m
  | t :: rest, m => sparsematrix_scatter L rest (matrix_write L m t.x t.y t.value)

/-- `matrix_to_sparsematrix`: emit the nonzero cells in column-major order
(`x` outer, `y` inner), each as `(short)x, (short)y, value`, and append the
sentinel triple `(-1, -1, -1.0)`. -/
def matrix_to_sparsematrix (L : ℕ) (m : ℕ → ℚ) : List sparsematrix :=
  ((List.range L).flatMap fun x =>
    (List.range (L / 2)).filterMap fun y =>
      if m (x + y * L) = 0 then none
      else some ⟨short_int x, short_int y, m (x + y * L)⟩)
  ++ [⟨-1, -1, -1⟩]

lemma short_int_of_small {n : ℕ} (h : n ≤ 32767) : short_int (n : ℤ) = (n : ℤ) := by
  unfold short_int
  omega

lemma sparsematrix_scan_append_sentinel (L : ℕ) (s : sparsematrix) (hs : s.x = -1) :
    ∀ (l : List sparsematrix) (m : ℕ → ℚ), (∀ t ∈ l, t.x ≠ -1) →
      sparsematrix_scan L (l ++ [s]) m = sparsematrix_scatter L l m := by
  intro l
  induction l with
  | nil => intro m _; simp [sparsematrix_scan, sparsematrix_scatter, hs]
  | cons t rest ih =>
      intro m hl
      have ht : t.x ≠ -1 := hl t (List.mem_cons_self t rest)
      simp only [List.cons_append, sparsematrix_scan, sparsematrix_scatter, if_neg ht]
      exact ih _ fun u hu => hl u (List.mem_cons_of_mem t hu)

lemma sparsematrix_scatter_eval (L : ℕ) (c : ℕ) (v : ℚ) :
    ∀ (l : List sparsematrix) (m : ℕ → ℚ),
      (∀ t ∈ l, t.x + t.y * (L : ℤ) = (c : ℤ) → t.value = v) →
      sparsematrix_scatter L l m c =
        if ∃ t ∈ l, t.x + t.y * (L : ℤ) = (c : ℤ) then v else m c := by
  intro l
  induction l with
  | nil => intro m _; simp [sparsematrix_scatter]
  | cons t rest ih =>
      intro m hl
      have hrest : ∀ u ∈ rest, u.x + u.y * (L : ℤ) = (c : ℤ) → u.value = v :=
        fun u hu => hl u (List.mem_cons_of_mem t hu)
      rw [sparsematrix_scatter, ih _ hrest]
      by_cases hex : ∃ u ∈ rest, u.x + u.y * (L : ℤ) = (c : ℤ)
      · obtain ⟨u, hu, hueq⟩ := hex
        rw [if_pos ⟨u, hu, hueq⟩, if_pos ⟨u, List.mem_cons_of_mem t hu, hueq⟩]
      · rw [if_neg hex]
        by_cases hhit : t.x + t.y * (L : ℤ) = (c : ℤ)
        · rw [if_pos ⟨t, List.mem_cons_self t rest, hhit⟩, matrix_write, if_pos hhit.symm]
          exact (hl t (List.mem_cons_self t rest) hhit).symm ▸ rfl
        · rw [matrix_write, if_neg (fun h => hhit h.symm)]
          rw [if_neg]
          intro hx
          rcases hx with ⟨u, hu, hueq⟩
          rcases List.mem_cons.mp hu with h1 | h2
          · exact hhit (h1 ▸ hueq)
          · exact hex ⟨u, h2, hueq⟩

/-- The triple-emitting loop of `matrix_to_sparsematrix`, without the
trailing sentinel. -/
def matrix_to_sparsematrix_body (L : ℕ) (m : ℕ → ℚ) : List sparsematrix :=
  (List.range L).flatMap fun x =>
    (List.range (L / 2)).filterMap fun y =>
      if m (x + y * L) = 0 then none
      else some ⟨short_int x, short_int y, m (x + y * L)⟩

lemma mem_matrix_to_sparsematrix_body {L : ℕ} {m : ℕ → ℚ} {t : sparsematrix} :
    t ∈ matrix_to_sparsematrix_body L m ↔
      ∃ x, x < L ∧ ∃ y, y < L / 2 ∧ m (x + y * L) ≠ 0 ∧
        t = ⟨short_int x, short_int y, m (x + y * L)⟩ := by
  unfold matrix_to_sparsematrix_body
  simp only [List.mem_flatMap, List.mem_filterMap, List.mem_range]
  constructor
  · rintro ⟨x, hx, y, hy, hsome⟩
    by_cases h0 : m (x + y * L) = 0
    · rw [if_pos h0] at hsome; cases hsome
    · rw [if_neg h0] at hsome
      exact ⟨x, hx, y, hy, h0, (Option.some_inj.mp hsome).symm⟩
  · rintro ⟨x, hx, y, hy, h0, ht⟩
    exact ⟨x, hx, y, hy, by rw [if_neg h0, ht]⟩

/-- C2: decoding the sparse encoding of a dense matrix restores the matrix
element-wise on every cell of the `L × (L/2)` grid. -/
theorem sparse_dense_roundtrip (L : ℕ) (m : ℕ → ℚ) (c : ℕ)
    (hL : 0 < L) (hL16 : L ≤ 32768) (hc : c < cells L) :
    sparsematrix_to_matrix L (matrix_to_sparsematrix L m) c = m c := by
  have hxval : ∀ x : ℕ, x < L → short_int (x : ℤ) = (x : ℤ) :=
    fun x hx => short_int_of_small (by omega)
  have hyval : ∀ y : ℕ, y < L / 2 → short_int (y : ℤ) = (y : ℤ) :=
    fun y hy => short_int_of_small (by omega)
  have hbody : matrix_to_sparsematrix L m =
      matrix_to_sparsematrix_body L m ++ [⟨-1, -1, -1⟩] := rfl
  have hnos : ∀ t ∈ matrix_to_sparsematrix_body L m, t.x ≠ -1 := by
    intro t ht
    obtain ⟨x, hx, y, hy, h0, rfl⟩ := mem_matrix_to_sparsematrix_body.mp ht
    show short_int (x : ℤ) ≠ -1
    rw [hxval x hx]
    omega
  have hval : ∀ t ∈ matrix_to_sparsematrix_body L m,
      t.x + t.y * (L : ℤ) = (c : ℤ) → t.value = m c := by
    intro t ht hhit
    obtain ⟨x, hx, y, hy, h0, rfl⟩ := mem_matrix_to_sparsematrix_body.mp ht
    show m (x + y * L) = m c
    have hhit2 : short_int (x : ℤ) + short_int (y : ℤ) * (L : ℤ) = (c : ℤ) := hhit
    rw [hxval x hx, hyval y hy] at hhit2
    have hnat : x + y * L = c := by exact_mod_cast hhit2
    rw [hnat]
  rw [sparsematrix_to_matrix, hbody,
    sparsematrix_scan_append_sentinel L ⟨-1, -1, -1⟩ rfl _ _ hnos,
    sparsematrix_scatter_eval L c (m c) _ _ hval]
  by_cases hex : ∃ t ∈ matrix_to_sparsematrix_body L m, t.x + t.y * (L : ℤ) = (c : ℤ)
  · rw [if_pos hex]
  · rw [if_neg hex]
    by_contra hne
    have h0 : m c ≠ 0 := fun h => hne h.symm
    apply hex
    have hx : c % L < L := Nat.mod_lt _ hL
    have hy : c / L < L / 2 := (Nat.div_lt_iff_lt_mul hL).mpr (by
      have hc2 : c < L * (L / 2) := hc
      rw [Nat.mul_comm] at hc2
      exact hc2)
    have heq : c % L + c / L * L = c := Nat.mod_add_div' c L
    refine ⟨⟨short_int (c % L : ℕ), short_int (c / L : ℕ), m (c % L + c / L * L)⟩, ?_, ?_⟩
    · exact mem_matrix_to_sparsematrix_body.mpr
        ⟨c % L, hx, c / L, hy, by rw [heq]; exact h0, rfl⟩
    · show short_int (c % L : ℕ) + short_int (c / L : ℕ) * (L : ℤ) = (c : ℤ)
      rw [hxval _ hx, hyval _ hy]
      exact_mod_cast congrArg (fun n : ℕ => (n : ℤ)) heq

/-- Witness for C2 at `L = 2` and the dense matrix `[0, 3]`. -/
theorem sparse_dense_roundtrip_witness :
    sparsematrix_to_matrix 2 (matrix_to_sparsematrix 2
      (fun c => if c = 1 then 3 else 0)) 1 = 3 :=
  sparse_dense_roundtrip 2 (fun c => if c = 1 then 3 else 0) 1
    (by norm_num) (by norm_num) (by decide)

lemma sparsematrix_scan_sentinel_payload (L : ℕ) (y₁ y₂ : ℤ) (v₁ v₂ : ℚ) :
    ∀ (l : List sparsematrix) (m : ℕ → ℚ),
      sparsematrix_scan L (l ++ [⟨-1, y₁, v₁⟩]) m =
        sparsematrix_scan L (l ++ [⟨-1, y₂, v₂⟩]) m := by
  intro l
  induction l with
  | nil => intro m; simp [sparsematrix_scan]
  | cons t rest ih =>
      intro m
      by_cases ht : t.x = -1
      · simp [sparsematrix_scan, ht]
      · simp only [List.cons_append, sparsematrix_scan, if_neg ht]
        exact ih _

/-- C9: the decoder reads triples only up to the first one whose `x` field is
`-1` and never looks at that triple's `y` or `value` fields, so a triple
sequence terminated with the encoder's sentinel value `-1.0` and the same
sequence terminated with the model reader's sentinel value `0.0` decode to
the same dense matrix. -/
theorem sparse_decoder_sentinel_payload_irrelevant (L : ℕ) (l : List sparsematrix)
    (y₁ y₂ : ℤ) (v₁ v₂ : ℚ) :
    sparsematrix_to_matrix L (l ++ [⟨-1, y₁, v₁⟩]) =
      sparsematrix_to_matrix L (l ++ [⟨-1, y₂, v₂⟩]) :=
  sparsematrix_scan_sentinel_payload L y₁ y₂ v₁ v₂ l (fun _ => 0)

/-- One element of `struct coordinate_list` (the stored `float` coordinates,
modelled as exact rationals). -/
structure coordinate where
  lat : ℚ
  lon : ℚ
deriving DecidableEq

/-- The cell index a point is deposited into by the accumulation loops:
`LONTOX(lon) + LATTOY(lat) * L`. -/
def point_cell (L : ℕ) (p : coordinate) : ℤ := lontox L p.lon + lattoy L p.lat * (L : ℤ)

/-- The training-side fields of `struct wordinfo` touched by
`word_coord_add_word`: the point list, the observation `count` and the
`weight` (the record is created inside zeroed memory, so `weight` starts
at `0`). -/
structure wordinfo where
  coordinate_list : List coordinate
  count : ℤ
  weight : ℚ
deriving DecidableEq

/-- `word_coord_add_word`: on first sight create the record with
`count = -1`, then increment `count`, and prepend the coordinates to the
point list unless `(lat, lon) == (0, 0)`.  The `storeword` flag only
controls duplication of the name string. -/
def word_coord_add_word {α : Type} [DecidableEq α] (store : α → Option wordinfo)
    (w : α) (lat lon : ℚ) (storeword : Bool) : α → Option wordinfo :=
  let r0 : wordinfo :=
    match store w with
    | some r => r
    | none => { coordinate_list := [], count := -1, weight := 0 }
  let r1 : wordinfo := { r0 with count := r0.count + 1 }
  let r2 : wordinfo :=
    if lat ≠ 0 ∨ lon ≠ 0 then { r1 with coordinate_list := ⟨lat, lon⟩ :: r1.coordinate_list }
    else r1
  Function.update store w (some r2)

/-- The trainer's retention test in `geoloc_train_model`: walk the feature's
point list counting its length into `j` and skip the feature iff
`j < g_threshold`. -/
def trainer_retains (threshold : ℤ) (r : wordinfo) : Bool :=
  !((r.coordinate_list.length : ℤ) < threshold)

/-- C8: a newly created feature record is initialized with `count = -1`
before the increment, so after the first observation of a feature its stored
count is `0` (one less than the number of observations); and the trainer's
threshold test depends only on the feature's point list, never on the
`count` field. -/
theorem feature_count_off_by_one_and_threshold_uses_points {α : Type} [DecidableEq α] :
    (∀ (store : α → Option wordinfo) (w : α) (lat lon : ℚ) (sw : Bool),
      store w = none →
      ((word_coord_add_word store w lat lon sw) w).map (fun r => r.count) = some 0) ∧
    (∀ (threshold : ℤ) (r₁ r₂ : wordinfo),
      r₁.coordinate_list = r₂.coordinate_list →
      trainer_retains threshold r₁ = trainer_retains threshold r₂) := by
  constructor
  · intro store w lat lon sw hnone
    unfold word_coord_add_word
    rw [hnone]
    by_cases h : lat ≠ 0 ∨ lon ≠ 0 <;>
      simp [h, Function.update]
  · intro threshold r₁ r₂ hpts
    unfold trainer_retains
    rw [hpts]

/-- Witness for C8: adding the unseen word `7` to an empty store yields
count `0`; two records with the same points but different counts get the
same retention verdict. -/
theorem feature_count_off_by_one_witness :
    ((word_coord_add_word (fun _ : ℕ => (none : Option wordinfo)) 7 10 20 true) 7).map
        (fun r => r.count) = some 0 ∧
    trainer_retains 1 ⟨[⟨10, 20⟩], 0, 0⟩ = trainer_retains 1 ⟨[⟨10, 20⟩], 55, 1⟩ :=
  ⟨(@feature_count_off_by_one_and_threshold_uses_points ℕ _).1 (fun _ => none) 7 10 20 true rfl,
   (@feature_count_off_by_one_and_threshold_uses_points ℕ _).2 1 _ _ rfl⟩

/-- The three per-cell accumulator arrays of `find_centroids`. -/
structure centroid_sums where
  lats : ℕ → ℚ
  lons : ℕ → ℚ
  counts : ℕ → ℕ

/-- One iteration of the accumulation loop of `find_centroids`:
`lats[cell] += lat; lons[cell] += lon; counts[cell] += 1`. -/
def find_centroids_step (L : ℕ) (s : centroid_sums) (p : coordinate) : centroid_sums where
  lats := fun c => if (c : ℤ) = point_cell L p then s.lats c + p.lat else s.lats c
  lons := fun c => if (c : ℤ) = point_cell L p then s.lons c + p.lon else s.lons c
  counts := fun c => if (c : ℤ) = point_cell L p then s.counts c + 1 else s.counts c

/-- `find_centroids`: accumulate per-cell latitude/longitude sums and counts
over the training points, then divide per cell, defaulting cells without
points to the cell midpoint. -/
def find_centroids (L : ℕ) (cl : List coordinate) : ℕ → ℚ × ℚ :=
  let s := cl.foldl (find_centroids_step L) ⟨fun _ => 0, fun _ => 0, fun _ => 0⟩
  fun c =>
    if s.counts c = 0 then (ytomidlat L (celltoy L c), xtomidlon L (celltox L c))
    else (s.lats c / (s.counts c : ℚ), s.lons c / (s.counts c : ℚ))

lemma find_centroids_accum (L : ℕ) (c : ℕ) :
    ∀ (cl : List coordinate) (s : centroid_sums),
      (cl.foldl (find_centroids_step L) s).lats c =
          s.lats c + ((cl.filter fun p => (c : ℤ) = point_cell L p).map coordinate.lat).sum ∧
      (cl.foldl (find_centroids_step L) s).lons c =
          s.lons c + ((cl.filter fun p => (c : ℤ) = point_cell L p).map coordinate.lon).sum ∧
      (cl.foldl (find_centroids_step L) s).counts c =
          s.counts c + (cl.filter fun p => (c : ℤ) = point_cell L p).length := by
  intro cl
  induction cl with
  | nil => intro s; simp
  | cons p cl ih =>
      intro s
      simp only [List.foldl_cons]
      rcases ih (find_centroids_step L s p) with ⟨ih1, ih2, ih3⟩
      by_cases hpc : (c : ℤ) = point_cell L p
      · refine ⟨?_, ?_, ?_⟩
        · rw [ih1]; simp [find_centroids_step, if_pos hpc, List.filter_cons, hpc]; ring
        · rw [ih2]; simp [find_centroids_step, if_pos hpc, List.filter_cons, hpc]; ring
        · rw [ih3]; simp [find_centroids_step, if_pos hpc, List.filter_cons, hpc]; omega
      · refine ⟨?_, ?_, ?_⟩
        · rw [ih1]; simp [find_centroids_step, if_neg hpc, List.filter_cons, hpc]
        · rw [ih2]; simp [find_centroids_step, if_neg hpc, List.filter_cons, hpc]
        · rw [ih3]; simp [find_centroids_step, if_neg hpc, List.filter_cons, hpc]

/-- C7: for every training point list, the centroid table assigns to each
cell containing at least one point the arithmetic mean of that cell's
points, and to each cell containing no point the cell's midpoint. -/
theorem find_centroids_mean_or_midpoint (L : ℕ) (cl : List coordinate) (c : ℕ)
    (hL : 0 < L) (hLeven : L % 2 = 0) (hc : c < cells L)
    (hvalid : ∀ p ∈ cl, -90 ≤ p.lat ∧ p.lat < 90 ∧ -180 ≤ p.lon ∧ p.lon < 180) :
    ((cl.filter fun p => (c : ℤ) = point_cell L p) ≠ [] →
      find_centroids L cl c =
        (((cl.filter fun p => (c : ℤ) = point_cell L p).map coordinate.lat).sum /
            (((cl.filter fun p => (c : ℤ) = point_cell L p).length : ℕ) : ℚ),
         ((cl.filter fun p => (c : ℤ) = point_cell L p).map coordinate.lon).sum /
            (((cl.filter fun p => (c : ℤ) = point_cell L p).length : ℕ) : ℚ))) ∧
    ((cl.filter fun p => (c : ℤ) = point_cell L p) = [] →
      find_centroids L cl c = (ytomidlat L (celltoy L c), xtomidlon L (celltox L c))) := by
  rcases find_centroids_accum L c cl ⟨fun _ => 0, fun _ => 0, fun _ => 0⟩ with ⟨h1, h2, h3⟩
  constructor
  · intro hne
    have hlen : (cl.filter fun p => (c : ℤ) = point_cell L p).length ≠ 0 :=
      fun h => hne (List.length_eq_zero.mp h)
    unfold find_centroids
    simp only [h1, h2, h3, zero_add]
    rw [if_neg hlen]
  · intro hemp
    unfold find_centroids
    simp only [h1, h2, h3, zero_add, hemp]
    simp

/-- Witness for C7: the spec's concrete scenario — three points
`(10,20), (12,22), (11,21)` in one cell of the 72-grid have centroid
`(11, 21)`. -/
theorem find_centroids_witness :
    find_centroids 72 [⟨10, 20⟩, ⟨12, 22⟩, ⟨11, 21⟩] 1480 = (11, 21) := by
  have hfil : (([⟨10, 20⟩, ⟨12, 22⟩, ⟨11, 21⟩] : List coordinate).filter
      fun p => ((1480 : ℕ) : ℤ) = point_cell 72 p) = [⟨10, 20⟩, ⟨12, 22⟩, ⟨11, 21⟩] := by
    simp only [List.filter_cons, List.filter_nil]
    norm_num [point_cell, lontox, lattoy, c_int]
  have h := (find_centroids_mean_or_midpoint 72 [⟨10, 20⟩, ⟨12, 22⟩, ⟨11, 21⟩] 1480
    (by norm_num) (by norm_num) (by norm_num [cells])
    (by intro p hp; fin_cases hp <;> norm_num)).1 (by rw [hfil]; simp)
  rw [h, hfil]
  norm_num

/-- Type of the `bivariate_gaussian_pdf` collaborator: a density function of
`(x1, x2, sigma1, sigma2, rho, mu1, mu2)`, kept as a parameter because the
embedding models `exp`/`pi`-free arithmetic exactly and the classifier-side
claims only use the pdf structurally. -/
abbrev GaussPdf := ℚ → ℚ → ℚ → ℚ → ℚ → ℚ → ℚ → ℚ

/-- List of the `int` loop indices of `for (i = a; i < b; i++)`. -/
def intRange (a b : ℤ) : List ℤ := (List.range (b - a).toNat).map fun i => a + (i : ℤ)

/-- Effect of `matrix[x + y*L] += v` on a dense matrix. -/
def matrix_incr (L : ℕ) (m : ℕ → ℚ) (x y : ℤ) (v : ℚ) : ℕ → ℚ :=
  fun c => if (c : ℤ) = x + y * (L : ℤ) then m c + v else m c

/-- `matrix_init` (via `matrix_set`): a dense matrix with every cell holding
the given constant. -/
def matrix_init (prior : ℚ) : ℕ → ℚ := fun _ => prior

/-- `matrix_nokde_from_coords`: add `1.0` to each input point's cell. -/
def matrix_nokde_from_coords (L : ℕ) (m : ℕ → ℚ) (cl : List coordinate) : ℕ → ℚ :=
  cl.foldl (fun mm p => matrix_incr L mm (lontox L p.lon) (lattoy L p.lat) 1) m

/-- The radius search at the top of `matrix_kde_from_coords`: step `x`
outward from the origin until the Gaussian profile evaluated at
`(x * 360/L, 0)` dips below `0.001`; `maxradius` is the first such `x`.
The C loop is unbounded, so its total model takes the termination fact `h`
as an argument. -/
def kde_maxradius (pdf : GaussPdf) (sigma1 sigma2 rho : ℚ) (L : ℕ)
    (h : ∃ x : ℕ, pdf ((x : ℚ) * (360 / (L : ℚ))) 0 sigma1 sigma2 rho 0 0 < 1 / 1000) : ℕ :=
  Nat.find h

/-- The per-point deposit loops of `matrix_kde_from_coords`, with the window
radius an explicit parameter: for each point, for each cell of the clipped
square window around the point's cell, add the pdf at the cell midpoint. -/
def kde_deposit (L : ℕ) (pdf : GaussPdf) (sigma1 sigma2 rho : ℚ) (maxradius : ℕ)
    (m : ℕ → ℚ) (cl : List coordinate) : ℕ → ℚ :=
  cl.foldl (fun mm p =>
    let minx := max 0 (lontox L p.lon - (maxradius : ℤ))
    let maxx := min (L : ℤ) (lontox L p.lon + (maxradius : ℤ))
    let miny := max 0 (lattoy L p.lat - (maxradius : ℤ))
    let maxy := min ((L / 2 : ℕ) : ℤ) (lattoy L p.lat + (maxradius : ℤ))
    (intRange miny maxy).foldl (fun mmy y =>
      (intRange minx maxx).foldl (fun mmx x =>
        matrix_incr L mmx x y (pdf (xtomidlon L x) (ytomidlat L y) sigma1 sigma2 rho p.lon p.lat))
        mmy) mm) m

/-- `matrix_kde_from_coords`: compute the fixed window radius once, then run
the per-point deposit loops with it. -/
def matrix_kde_from_coords (L : ℕ) (pdf : GaussPdf) (sigma1 sigma2 rho : ℚ)
    (h : ∃ x : ℕ, pdf ((x : ℚ) * (360 / (L : ℚ))) 0 sigma1 sigma2 rho 0 0 < 1 / 1000)
    (m : ℕ → ℚ) (cl : List coordinate) : ℕ → ℚ :=
  kde_deposit L pdf sigma1 sigma2 rho (kde_maxradius pdf sigma1 sigma2 rho L h) m cl

/-- C4: the KDE deposit's window radius equals the smallest nonnegative
number of ticks `x` at which the Gaussian profile along one axis, evaluated
at `x * (360/L)`, falls below `10⁻³`; and the deposit applies this same
radius to every matrix and point list (it is computed before, and without
reference to, the points). -/
theorem kde_radius_least (pdf : GaussPdf) (sigma1 sigma2 rho : ℚ) (L : ℕ)
    (h : ∃ x : ℕ, pdf ((x : ℚ) * (360 / (L : ℚ))) 0 sigma1 sigma2 rho 0 0 < 1 / 1000) :
    pdf ((kde_maxradius pdf sigma1 sigma2 rho L h : ℚ) * (360 / (L : ℚ))) 0
        sigma1 sigma2 rho 0 0 < 1 / 1000 ∧
    (∀ x : ℕ, x < kde_maxradius pdf sigma1 sigma2 rho L h →
      ¬ pdf ((x : ℚ) * (360 / (L : ℚ))) 0 sigma1 sigma2 rho 0 0 < 1 / 1000) ∧
    (∀ (m : ℕ → ℚ) (cl : List coordinate),
      matrix_kde_from_coords L pdf sigma1 sigma2 rho h m cl =
        kde_deposit L pdf sigma1 sigma2 rho (kde_maxradius pdf sigma1 sigma2 rho L h) m cl) :=
  ⟨Nat.find_spec h, fun _ hx => Nat.find_min h hx, fun _ _ => rfl⟩

/-- Witness for C4 with the everywhere-zero pdf: the radius search
terminates at `0` and satisfies the threshold there. -/
theorem kde_radius_least_witness :
    (fun (_ _ _ _ _ _ _ : ℚ) => (0 : ℚ))
      ((kde_maxradius (fun _ _ _ _ _ _ _ => 0) 3 3 0 360 ⟨0, by norm_num⟩ : ℚ) *
        (360 / (360 : ℚ))) 0 3 3 0 0 0 < 1 / 1000 :=
  (kde_radius_least (fun _ _ _ _ _ _ _ => 0) 3 3 0 360 ⟨0, by norm_num⟩).1

/-- Sum of a dense matrix over the grid (the normalization loops). -/
def sum_cells (L : ℕ) (m : ℕ → ℚ) : ℚ := ∑ c ∈ Finset.range (cells L), m c

/-- `matrix_normalize`: divide every cell by the grid sum. -/
def matrix_normalize (L : ℕ) (m : ℕ → ℚ) : ℕ → ℚ :=
  fun c => m c / sum_cells L m

/-- The document-prior (`P_c`, `tweetsmatrix`) construction of
`geoloc_train_model`: initialize every cell to the tweet prior, deposit the
document coordinates via KDE or plain counting, then normalize linearly. -/
def train_tweetsmatrix (L : ℕ) (nokde : Bool) (pdf : GaussPdf) (sigma : ℚ)
    (h : ∃ x : ℕ, pdf ((x : ℚ) * (360 / (L : ℚ))) 0 sigma sigma 0 0 0 < 1 / 1000)
    (tweetprior : ℚ) (cl : List coordinate) : ℕ → ℚ :=
  matrix_normalize L
    (if nokde then matrix_nokde_from_coords L (matrix_init tweetprior) cl
     else matrix_kde_from_coords L pdf sigma sigma 0 h (matrix_init tweetprior) cl)

lemma foldl_pointwise_ge {β : Type} (step : (ℕ → ℚ) → β → (ℕ → ℚ))
    (hstep : ∀ (m : ℕ → ℚ) (b : β) (c : ℕ), m c ≤ step m b c) :
    ∀ (l : List β) (m : ℕ → ℚ) (c : ℕ), m c ≤ (l.foldl step m) c := by
  intro l
  induction l with
  | nil => intro m c; exact le_refl _
  | cons b l ih => intro m c; exact le_trans (hstep m b c) (ih (step m b) c)

lemma matrix_incr_ge (L : ℕ) (m : ℕ → ℚ) (x y : ℤ) (v : ℚ) (hv : 0 ≤ v) (c : ℕ) :
    m c ≤ matrix_incr L m x y v c := by
  unfold matrix_incr
  by_cases hc : (c : ℤ) = x + y * (L : ℤ)
  · rw [if_pos hc]; linarith
  · rw [if_neg hc]

lemma matrix_nokde_from_coords_ge (L : ℕ) (m : ℕ → ℚ) (cl : List coordinate) (c : ℕ) :
    m c ≤ matrix_nokde_from_coords L m cl c :=
  foldl_pointwise_ge _ (fun mm p c2 => matrix_incr_ge L mm _ _ 1 (by norm_num) c2) cl m c

lemma kde_deposit_ge (L : ℕ) (pdf : GaussPdf) (sigma1 sigma2 rho : ℚ) (r : ℕ)
    (hpdf : ∀ a b c d e f g, 0 ≤ pdf a b c d e f g)
    (m : ℕ → ℚ) (cl : List coordinate) (c : ℕ) :
    m c ≤ kde_deposit L pdf sigma1 sigma2 rho r m cl c := by
  unfold kde_deposit
  refine foldl_pointwise_ge _ ?_ cl m c
  intro mm p c2
  refine foldl_pointwise_ge _ ?_ _ mm c2
  intro mmy y c3
  refine foldl_pointwise_ge _ ?_ _ mmy c3
  intro mmx x c4
  exact matrix_incr_ge L mmx x y _ (hpdf _ _ _ _ _ _ _) c4

/-- C5: after the trainer builds the document-prior matrix (initialize to
the tweet prior, deposit via KDE or plain counting, normalize linearly), its
entries sum to exactly 1 and every entry is strictly positive, provided the
grid is valid, the prior is positive (default `1.0`) and the pdf is
nonnegative. -/
theorem train_tweetsmatrix_sums_to_one_and_positive (L : ℕ) (nokde : Bool)
    (pdf : GaussPdf) (sigma : ℚ)
    (h : ∃ x : ℕ, pdf ((x : ℚ) * (360 / (L : ℚ))) 0 sigma sigma 0 0 0 < 1 / 1000)
    (tweetprior : ℚ) (cl : List coordinate)
    (hL : 0 < L) (hLeven : L % 2 = 0) (hprior : 0 < tweetprior)
    (hpdf : ∀ a b c d e f g, 0 ≤ pdf a b c d e f g) :
    sum_cells L (train_tweetsmatrix L nokde pdf sigma h tweetprior cl) = 1 ∧
    ∀ c < cells L, 0 < train_tweetsmatrix L nokde pdf sigma h tweetprior cl c := by
  have hN : 0 < cells L := by
    unfold cells
    exact Nat.mul_pos hL (by omega)
  have hdom : ∀ c, tweetprior ≤
      (if nokde then matrix_nokde_from_coords L (matrix_init tweetprior) cl
       else matrix_kde_from_coords L pdf sigma sigma 0 h (matrix_init tweetprior) cl) c := by
    intro c
    by_cases hk : nokde
    · rw [if_pos hk]
      exact matrix_nokde_from_coords_ge L (matrix_init tweetprior) cl c
    · rw [if_neg hk]
      exact kde_deposit_ge L pdf sigma sigma 0 _ hpdf (matrix_init tweetprior) cl c
  have hsum : 0 < sum_cells L
      (if nokde then matrix_nokde_from_coords L (matrix_init tweetprior) cl
       else matrix_kde_from_coords L pdf sigma sigma 0 h (matrix_init tweetprior) cl) := by
    have hle : ∑ c ∈ Finset.range (cells L), tweetprior ≤ sum_cells L _ :=
      Finset.sum_le_sum (fun i _ => hdom i)
    rw [Finset.sum_const, Finset.card_range, nsmul_eq_mul] at hle
    have hpos : (0 : ℚ) < (cells L : ℚ) * tweetprior :=
      mul_pos (by exact_mod_cast hN) hprior
    exact lt_of_lt_of_le hpos hle
  constructor
  · unfold train_tweetsmatrix matrix_normalize
    show (∑ c ∈ Finset.range (cells L), _ / _) = 1
    rw [← Finset.sum_div]
    exact div_self (ne_of_gt hsum)
  · intro c _
    unfold train_tweetsmatrix matrix_normalize
    exact div_pos (lt_of_lt_of_le hprior (hdom c)) hsum

/-- Witness for C5 at `L = 2`, plain counting, empty document list and the
default prior `1.0`. -/
theorem train_tweetsmatrix_sums_witness :
    sum_cells 2 (train_tweetsmatrix 2 true (fun _ _ _ _ _ _ _ => 0) 3
      ⟨0, by norm_num⟩ 1 []) = 1 ∧
    ∀ c < cells 2, 0 < train_tweetsmatrix 2 true (fun _ _ _ _ _ _ _ => 0) 3
      ⟨0, by norm_num⟩ 1 [] c :=
  train_tweetsmatrix_sums_to_one_and_positive 2 true (fun _ _ _ _ _ _ _ => 0) 3
    ⟨0, by norm_num⟩ 1 [] (by norm_num) (by norm_num) (by norm_num)
    (fun _ _ _ _ _ _ _ => le_refl 0)

/-- Classifier-side view of one feature of a loaded model: the dense density
matrix that `word_get_matrix` produces for the feature's index (decoded from
the stored sparse matrix, or recomputed from the points), plus the record's
`weight` and `count` as read by `word_coord_get_weight` / `word_coord_get_count`. -/
structure wordentry where
  matrix : ℕ → ℚ
  weight : ℚ
  count : ℚ

/-- The global configuration read by the scoring loops. -/
structure GeoConfig where
  L : ℕ
  wordprior : ℚ
  unk : Bool
  complement : Bool
  wordtypes : ℕ
  total_wordcount : ℚ

/-- The cast `(double)g_unk` appearing in the scoring denominators. -/
def unkBit (cfg : GeoConfig) : ℚ := if cfg.unk then 1 else 0

/-- The minimum-prior search at the top of `tweet_classify_naivebayes`
(`c_min` starts from the literal `100000`). -/
def nb_cmin (L : ℕ) (tm : ℕ → ℚ) : ℚ :=
  (List.range (cells L)).foldl (fun acc c => if tm c < acc then tm c else acc) 100000

/-- Whether the shortcut skips cell `c`: `tweetsmatrix[c] == c_min` and no
result matrix was requested. -/
def skip_cell (L : ℕ) (tm : ℕ → ℚ) (resNull : Bool) (c : ℕ) : Bool :=
  if tm c = nb_cmin L tm then resNull else false

/-- The mutable per-query state of the Naive Bayes word loop: the log-score
accumulator `totalmatrix` and the C locals `feature_weight` and `wordcount`,
which persist across iterations because they are assigned only in the
known-feature branch. -/
structure NBState where
  total : ℕ → ℚ
  feature_weight : ℚ
  wordcount : ℚ

/-- The per-cell score update for one processed feature of
`tweet_classify_naivebayes`: every non-skipped cell gains (plain NB) or
loses (complement NB) the log-likelihood term built from the feature's
density matrix `fm` and the aggregate matrix `Mw`. -/
def nb_cell_update (cfg : GeoConfig) (lg : ℚ → ℚ) (tm Mw : ℕ → ℚ) (resNull : Bool)
    (fm : ℕ → ℚ) (wcount : ℚ) (total : ℕ → ℚ) : ℕ → ℚ :=
  fun c =>
    if c < cells cfg.L ∧ skip_cell cfg.L tm resNull c = false then
      if cfg.complement = false then
        total c + (lg (fm c + cfg.wordprior) -
          lg (Mw c + cfg.wordprior * ((cfg.wordtypes : ℚ) + 1 + unkBit cfg)))
      else
        total c - (lg (wcount - fm c + cfg.wordprior) -
          lg (cfg.total_wordcount - Mw c +
            cfg.wordprior * ((cfg.wordtypes : ℚ) + 1 + unkBit cfg)))
    else total c

/-- One iteration of the word loop of `tweet_classify_naivebayes`: a known
feature assigns the matrix/weight/count locals and then scores unless its
weight is zero; an unknown feature in `unk` mode scores with an all-zero
matrix but tests (and keeps) the stale `feature_weight`; an unknown feature
otherwise is skipped without touching any state. -/
def nb_step {α : Type} (cfg : GeoConfig) (lg : ℚ → ℚ) (lookup : α → Option wordentry)
    (tm Mw : ℕ → ℚ) (resNull : Bool) (st : NBState) (w : α) : NBState :=
  match lookup w with
  | some fi =>
      let st1 : NBState := { st with feature_weight := fi.weight, wordcount := fi.count }
      if st1.feature_weight = 0 then st1
      else { st1 with
        total := nb_cell_update cfg lg tm Mw resNull fi.matrix st1.wordcount st1.total }
  | none =>
      if cfg.unk then
        if st.feature_weight = 0 then st
        else { st with
          total := nb_cell_update cfg lg tm Mw resNull (matrix_init 0) st.wordcount st.total }
      else st

/-- The `totalmatrix` accumulated by `tweet_classify_naivebayes` after the
word loop, starting from the log of the prior matrix; `initFW` and `initWC`
are the (indeterminate) initial contents of the uninitialized C locals
`feature_weight` and `wordcount`. -/
def nb_total {α : Type} (cfg : GeoConfig) (lg : ℚ → ℚ) (lookup : α → Option wordentry)
    (tm Mw : ℕ → ℚ) (resNull : Bool) (initFW initWC : ℚ) (words : List α) : ℕ → ℚ :=
  (words.foldl (nb_step cfg lg lookup tm Mw resNull)
    ⟨fun c => lg (tm c), initFW, initWC⟩).total

/-- One iteration of the final arg-reduction loop (`p_max` starts below
every representable score, modelled as `none`). -/
def nb_argmax_step (skip : ℕ → Bool) (total : ℕ → ℚ) (acc : ℕ × Option ℚ) (c : ℕ) :
    ℕ × Option ℚ :=
  if skip c then acc
  else
    match acc.2 with
    | none => (c, some (total c))
    | some pmax => if total c > pmax then (c, some (total c)) else acc

/-- The final arg-reduction of `tweet_classify_naivebayes`: first strictly
larger score wins; skipped cells are not considered; `maxindex` starts at 0. -/
def nb_argmax (L : ℕ) (skip : ℕ → Bool) (total : ℕ → ℚ) : ℕ :=
  ((List.range (cells L)).foldl (nb_argmax_step skip total) (0, none)).1

/-- `tweet_classify_naivebayes` on an already-loaded model: compute the
minimum prior, process the query words, and return the arg-max cell.
`resNull` is true iff no result matrix was passed. -/
def tweet_classify_naivebayes {α : Type} (cfg : GeoConfig) (lg : ℚ → ℚ)
    (lookup : α → Option wordentry) (tm Mw : ℕ → ℚ) (resNull : Bool)
    (initFW initWC : ℚ) (words : List α) : ℕ :=
  nb_argmax cfg.L (skip_cell cfg.L tm resNull)
    (nb_total cfg lg lookup tm Mw resNull initFW initWC words)

/-- The summand of the specification's Naive Bayes score formula for one
query feature (claim C1's Σ_f term): features with weight 0 contribute
nothing, unknown features are dropped with `unk` off and contribute the
zero-density term with `unk` on. -/
def nb_spec_term {α : Type} (cfg : GeoConfig) (lg : ℚ → ℚ)
    (lookup : α → Option wordentry) (Mw : ℕ → ℚ) (c : ℕ) (w : α) : ℚ :=
  match lookup w with
  | some fi =>
      if fi.weight = 0 then 0
      else lg (fi.matrix c + cfg.wordprior) -
        lg (Mw c + cfg.wordprior * ((cfg.wordtypes : ℚ) + 1 + unkBit cfg))
  | none =>
      if cfg.unk then
        lg (0 + cfg.wordprior) -
          lg (Mw c + cfg.wordprior * ((cfg.wordtypes : ℚ) + 1 + unkBit cfg))
      else 0

/-- The specification's Naive Bayes score, written from the spec sentence:
`score(c) = log P_c[c] + Σ_f [log(m_f[c]+wordprior) −
log(M_w[c]+wordprior·(|W|+1+1_unk))]`. -/
def nb_score_spec {α : Type} (cfg : GeoConfig) (lg : ℚ → ℚ)
    (lookup : α → Option wordentry) (tm Mw : ℕ → ℚ) (words : List α) (c : ℕ) : ℚ :=
  lg (tm c) + (words.map (nb_spec_term cfg lg lookup Mw c)).sum

/-- One iteration of the query-preparation loop of
`tweet_classify_kullbackleibler`: a known word is appended to the unique
list on first sight and its seen count incremented; an unknown word is
passed over entirely (the `unk` flag is not consulted). -/
def kl_prep_step {α : Type} [DecidableEq α] (lookup : α → Option wordentry)
    (st : List α × (α → ℕ)) (w : α) : List α × (α → ℕ) :=
  match lookup w with
  | some _ =>
      let uniq := if st.2 w = 0 then st.1 ++ [w] else st.1
      (uniq, Function.update st.2 w (st.2 w + 1))
  | none => st

/-- The prepared query of the KL classifier: the unique known query words in
first-seen order (`uniqwords`), with the final per-word seen counts
(`seencounts`). -/
def kl_prepare {α : Type} [DecidableEq α] (lookup : α → Option wordentry)
    (words : List α) : List α × (α → ℕ) :=
  words.foldl (kl_prep_step lookup) ([], fun _ => 0)

lemma skip_cell_resfalse (L : ℕ) (tm : ℕ → ℚ) (c : ℕ) :
    skip_cell L tm false c = false := by
  unfold skip_cell
  split <;> rfl

lemma nb_total_foldl_spec {α : Type} (cfg : GeoConfig) (lg : ℚ → ℚ)
    (lookup : α → Option wordentry) (tm Mw : ℕ → ℚ)
    (hcomp : cfg.complement = false) :
    ∀ (words : List α) (st : NBState),
      (cfg.unk = false ∨ ∀ w ∈ words, (lookup w).isSome) →
      ∀ c, c < cells cfg.L →
        (words.foldl (nb_step cfg lg lookup tm Mw false) st).total c =
          st.total c + (words.map (nb_spec_term cfg lg lookup Mw c)).sum := by
  intro words
  induction words with
  | nil => intro st _ c _; simp
  | cons w ws ih =>
      intro st hok c hc
      have hokws : cfg.unk = false ∨ ∀ u ∈ ws, (lookup u).isSome := by
        rcases hok with h | h
        · exact Or.inl h
        · exact Or.inr fun u hu => h u (List.mem_cons_of_mem w hu)
      simp only [List.foldl_cons, List.map_cons, List.sum_cons]
      rw [ih (nb_step cfg lg lookup tm Mw false st w) hokws c hc]
      have hstep : (nb_step cfg lg lookup tm Mw false st w).total c =
          st.total c + nb_spec_term cfg lg lookup Mw c w := by
        unfold nb_step nb_spec_term
        cases hlw : lookup w with
        | some fi =>
            by_cases hw0 : fi.weight = 0
            · simp [hw0]
            · simp only [hw0, if_false, if_neg hw0]
              unfold nb_cell_update
              rw [if_pos ⟨hc, skip_cell_resfalse cfg.L tm c⟩, if_pos hcomp]
        | none =>
            rcases hok with hunk | hsome
            · simp [hunk]
            · exact absurd (hsome w (List.mem_cons_self w ws))
                (by simp [hlw])
      rw [hstep]
      ring
  
lemma nb_argmax_fold (total : ℕ → ℚ) (skip : ℕ → Bool)
    (hskip : ∀ c, skip c = false) :
    ∀ (l : List ℕ) (j : ℕ),
      ((l.foldl (nb_argmax_step skip total) (j, some (total j))).1 = j ∨
        (l.foldl (nb_argmax_step skip total) (j, some (total j))).1 ∈ l) ∧
      (l.foldl (nb_argmax_step skip total) (j, some (total j))).2 =
        some (total ((l.foldl (nb_argmax_step skip total) (j, some (total j))).1)) ∧
      total j ≤ total ((l.foldl (nb_argmax_step skip total) (j, some (total j))).1) ∧
      ∀ c ∈ l, total c ≤ total ((l.foldl (nb_argmax_step skip total) (j, some (total j))).1) := by
  intro l
  induction l with
  | nil => intro j; exact ⟨Or.inl rfl, rfl, le_refl _, by simp⟩
  | cons c l ih =>
      intro j
      have hstep : nb_argmax_step skip total (j, some (total j)) c =
          if total c > total j then (c, some (total c)) else (j, some (total j)) := by
        unfold nb_argmax_step
        rw [hskip c]
        simp
      simp only [List.foldl_cons, hstep]
      by_cases hcj : total c > total j
      · rw [if_pos hcj]
        rcases ih c with ⟨hmem, hval, hle, hall⟩
        refine ⟨?_, hval, ?_, ?_⟩
        · rcases hmem with h | h
          · exact Or.inr (by rw [h]; exact List.mem_cons_self c l)
          · exact Or.inr (List.mem_cons_of_mem c h)
        · exact le_trans (le_of_lt hcj) hle
        · intro d hd
          rcases List.mem_cons.mp hd with h | h
          · subst h
            exact hle
          · exact hall d h
      · rw [if_neg hcj]
        rcases ih j with ⟨hmem, hval, hle, hall⟩
        refine ⟨?_, hval, hle, ?_⟩
        · rcases hmem with h | h
          · exact Or.inl h
          · exact Or.inr (List.mem_cons_of_mem c h)
        · intro d hd
          rcases List.mem_cons.mp hd with h | h
          · subst h
            exact le_trans (not_lt.mp hcj) hle
          · exact hall d h

lemma nb_argmax_spec (L : ℕ) (skip : ℕ → Bool) (total : ℕ → ℚ)
    (hskip : ∀ c, skip c = false) (hN : 0 < cells L) :
    nb_argmax L skip total < cells L ∧
    ∀ c < cells L, total c ≤ total (nb_argmax L skip total) := by
  obtain ⟨n, hn⟩ : ∃ n, cells L = n + 1 := ⟨cells L - 1, by omega⟩
  unfold nb_argmax
  rw [hn, List.range_succ_eq_map]
  have hhead : nb_argmax_step skip total (0, none) 0 = (0, some (total 0)) := by
    unfold nb_argmax_step
    rw [hskip 0]
    simp
  simp only [List.foldl_cons, hhead]
  rcases nb_argmax_fold total skip hskip ((List.range n).map Nat.succ) 0 with
    ⟨hmem, _, hle, hall⟩
  constructor
  · rcases hmem with h | h
    · omega
    · rcases List.mem_map.mp h with ⟨s, hs, hsucc⟩
      have := List.mem_range.mp hs
      omega
  · intro c hc
    rcases Nat.eq_zero_or_pos c with h0 | hpos
    · exact h0 ▸ hle
    · refine hall c (List.mem_map.mpr ⟨c - 1, List.mem_range.mpr (by omega), by omega⟩)

/-- C1 (amended): when the caller requests the full result matrix (so the
minimum-prior shortcut is disabled) and either `unk` mode is off or every
query feature occurs in the model (so the stale `feature_weight` local is
never consulted), the Naive Bayes classifier's accumulated `totalmatrix`
equals the specification's score `log P_c[c] + Σ_f [log(m_f[c]+wordprior) −
log(M_w[c]+wordprior·(|W|+1+1_unk))]` on every cell, and the returned index
is a cell maximizing this score. -/
theorem tweet_classify_naivebayes_formula {α : Type} (cfg : GeoConfig) (lg : ℚ → ℚ)
    (lookup : α → Option wordentry) (tm Mw : ℕ → ℚ) (words : List α)
    (initFW initWC : ℚ)
    (hL : 0 < cfg.L) (hLeven : cfg.L % 2 = 0)
    (hcomp : cfg.complement = false)
    (hknown : cfg.unk = false ∨ ∀ w ∈ words, (lookup w).isSome) :
    (∀ c < cells cfg.L,
      nb_total cfg lg lookup tm Mw false initFW initWC words c =
        nb_score_spec cfg lg lookup tm Mw words c) ∧
    tweet_classify_naivebayes cfg lg lookup tm Mw false initFW initWC words < cells cfg.L ∧
    ∀ c < cells cfg.L,
      nb_score_spec cfg lg lookup tm Mw words c ≤
        nb_score_spec cfg lg lookup tm Mw words
          (tweet_classify_naivebayes cfg lg lookup tm Mw false initFW initWC words) := by
  have hN : 0 < cells cfg.L := by
    unfold cells
    exact Nat.mul_pos hL (by omega)
  have heq : ∀ c < cells cfg.L,
      nb_total cfg lg lookup tm Mw false initFW initWC words c =
        nb_score_spec cfg lg lookup tm Mw words c := by
    intro c hc
    exact nb_total_foldl_spec cfg lg lookup tm Mw hcomp words _ hknown c hc
  rcases nb_argmax_spec cfg.L (skip_cell cfg.L tm false)
      (nb_total cfg lg lookup tm Mw false initFW initWC words)
      (skip_cell_resfalse cfg.L tm) hN with ⟨hlt, hmax⟩
  unfold tweet_classify_naivebayes
  refine ⟨heq, hlt, ?_⟩
  intro c hc
  rw [← heq c hc, ← heq _ hlt]
  exact hmax c hc

/-- C1 counterexample: with a uniform prior and no result matrix requested,
the minimum-prior shortcut excludes every cell from scoring and from the
arg-reduction, so the classifier returns cell 0 even though the
specification's score is uniquely maximized at cell 1. -/
theorem nb_shortcut_skips_best_cell :
    tweet_classify_naivebayes ⟨2, 1, false, false, 1, 0⟩ id
      (fun w : ℕ => if w = 0 then some ⟨fun c => if c = 1 then 1 else 0, 1, 1⟩ else none)
      (fun _ => 1) (fun _ => 0) true 0 0 [0] = 0 ∧
    nb_score_spec ⟨2, 1, false, false, 1, 0⟩ id
      (fun w : ℕ => if w = 0 then some ⟨fun c => if c = 1 then 1 else 0, 1, 1⟩ else none)
      (fun _ => 1) (fun _ => 0) [0] 0 <
      nb_score_spec ⟨2, 1, false, false, 1, 0⟩ id
        (fun w : ℕ => if w = 0 then some ⟨fun c => if c = 1 then 1 else 0, 1, 1⟩ else none)
        (fun _ => 1) (fun _ => 0) [0] 1 := by
  have hrange : List.range (cells 2) = [0, 1] := rfl
  have hcmin : nb_cmin 2 (fun _ => (1 : ℚ)) = 1 := by
    rw [nb_cmin, hrange]
    norm_num
  have hskip : ∀ c, skip_cell 2 (fun _ => (1 : ℚ)) true c = true := by
    intro c
    rw [skip_cell, hcmin]
    norm_num
  constructor
  · show nb_argmax 2 (skip_cell 2 (fun _ => 1) true) _ = 0
    rw [nb_argmax, hrange]
    simp only [List.foldl_cons, List.foldl_nil, nb_argmax_step, hskip]
    simp
  · simp only [nb_score_spec, nb_spec_term, List.map_cons, List.map_nil, List.sum_cons,
      List.sum_nil, unkBit]
    norm_num

/-- Witness for the amended C1 at a two-cell grid with one known feature and
the result matrix requested. -/
theorem tweet_classify_naivebayes_formula_witness :
    (∀ c < cells 2,
      nb_total ⟨2, 1, false, false, 1, 0⟩ id
        (fun w : ℕ => if w = 0 then some ⟨fun c => if c = 1 then 1 else 0, 1, 1⟩ else none)
        (fun _ => 1) (fun _ => 0) false 0 0 [0] c =
        nb_score_spec ⟨2, 1, false, false, 1, 0⟩ id
          (fun w : ℕ => if w = 0 then some ⟨fun c => if c = 1 then 1 else 0, 1, 1⟩ else none)
          (fun _ => 1) (fun _ => 0) [0] c) ∧
    tweet_classify_naivebayes ⟨2, 1, false, false, 1, 0⟩ id
      (fun w : ℕ => if w = 0 then some ⟨fun c => if c = 1 then 1 else 0, 1, 1⟩ else none)
      (fun _ => 1) (fun _ => 0) false 0 0 [0] < cells 2 ∧
    ∀ c < cells 2,
      nb_score_spec ⟨2, 1, false, false, 1, 0⟩ id
        (fun w : ℕ => if w = 0 then some ⟨fun c => if c = 1 then 1 else 0, 1, 1⟩ else none)
        (fun _ => 1) (fun _ => 0) [0] c ≤
        nb_score_spec ⟨2, 1, false, false, 1, 0⟩ id
          (fun w : ℕ => if w = 0 then some ⟨fun c => if c = 1 then 1 else 0, 1, 1⟩ else none)
          (fun _ => 1) (fun _ => 0) [0]
          (tweet_classify_naivebayes ⟨2, 1, false, false, 1, 0⟩ id
            (fun w : ℕ => if w = 0 then some ⟨fun c => if c = 1 then 1 else 0, 1, 1⟩ else none)
            (fun _ => 1) (fun _ => 0) false 0 0 [0]) :=
  tweet_classify_naivebayes_formula ⟨2, 1, false, false, 1, 0⟩ id
    (fun w : ℕ => if w = 0 then some ⟨fun c => if c = 1 then 1 else 0, 1, 1⟩ else none)
    (fun _ => 1) (fun _ => 0) [0] 0 0 (by norm_num) (by norm_num) rfl
    (Or.inr (by intro w hw; fin_cases hw; rfl))

/-- C3 counterexample: in the KL classifier's query preparation, a feature
absent from the model is dropped outright — the prepared unique-word list
stays empty — even though the claim requires it to be admitted with a zero
density when `unk` mode is on (the preparation never consults the `unk`
flag). -/
theorem kl_prepare_drops_unknown_feature :
    (fun _ : ℕ => (none : Option wordentry)) 0 = none ∧
    (kl_prepare (fun _ : ℕ => (none : Option wordentry)) [0]).1 = [] :=
  ⟨rfl, rfl⟩

/-- C3 (amended): in the Naive Bayes classifier a query feature not in the
model is dropped with no state change when `unk` mode is off, and with `unk`
mode on it is processed exactly like a known feature carrying an all-zero
density matrix (and the stale `feature_weight`/`wordcount` state); in the KL
classifier's query preparation an unknown feature is always dropped,
whatever the `unk` flag. -/
theorem query_preparation_unknown_features {α : Type} [DecidableEq α] :
    (∀ (cfg : GeoConfig) (lg : ℚ → ℚ) (lookup : α → Option wordentry)
        (tm Mw : ℕ → ℚ) (resNull : Bool) (st : NBState) (w : α),
      cfg.unk = false → lookup w = none →
      nb_step cfg lg lookup tm Mw resNull st w = st) ∧
    (∀ (cfg : GeoConfig) (lg : ℚ → ℚ) (lookup lookupB : α → Option wordentry)
        (tm Mw : ℕ → ℚ) (resNull : Bool) (st : NBState) (w wB : α),
      cfg.unk = true → lookup w = none →
      lookupB wB = some ⟨matrix_init 0, st.feature_weight, st.wordcount⟩ →
      nb_step cfg lg lookup tm Mw resNull st w =
        nb_step cfg lg lookupB tm Mw resNull st wB) ∧
    (∀ (lookup : α → Option wordentry) (st : List α × (α → ℕ)) (w : α),
      lookup w = none → kl_prep_step lookup st w = st) := by
  refine ⟨?_, ?_, ?_⟩
  · intro cfg lg lookup tm Mw resNull st w hunk hw
    unfold nb_step
    rw [hw, hunk]
    simp
  · intro cfg lg lookup lookupB tm Mw resNull st w wB hunk hw hwB
    obtain ⟨tot, fw, wc⟩ := st
    unfold nb_step
    rw [hw, hwB, hunk]
    by_cases hfw : fw = 0 <;> simp [hfw]
  · intro lookup st w hw
    unfold kl_prep_step
    rw [hw]

/-- Witness for the amended C3 on concrete two-cell models and queries. -/
theorem query_preparation_unknown_features_witness :
    nb_step ⟨2, 1, false, false, 0, 0⟩ id (fun _ : ℕ => none) (fun _ => 1) (fun _ => 0)
      false ⟨fun _ => 0, 0, 0⟩ 9 = ⟨fun _ => 0, 0, 0⟩ ∧
    nb_step ⟨2, 1, true, false, 0, 0⟩ id (fun _ : ℕ => none) (fun _ => 1) (fun _ => 0)
      false ⟨fun _ => 0, 0, 0⟩ 9 =
      nb_step ⟨2, 1, true, false, 0, 0⟩ id
        (fun _ : ℕ => some ⟨matrix_init 0, 0, 0⟩) (fun _ => 1) (fun _ => 0)
        false ⟨fun _ => 0, 0, 0⟩ 4 ∧
    kl_prep_step (fun _ : ℕ => (none : Option wordentry)) ([], fun _ => 0) 3 =
      ([], fun _ => 0) :=
  ⟨(@query_preparation_unknown_features ℕ _).1 ⟨2, 1, false, false, 0, 0⟩ id
      (fun _ => none) (fun _ => 1) (fun _ => 0) false ⟨fun _ => 0, 0, 0⟩ 9 rfl rfl,
   (@query_preparation_unknown_features ℕ _).2.1 ⟨2, 1, true, false, 0, 0⟩ id
      (fun _ => none) (fun _ => some ⟨matrix_init 0, 0, 0⟩) (fun _ => 1) (fun _ => 0)
      false ⟨fun _ => 0, 0, 0⟩ 9 4 rfl rfl rfl,
   (@query_preparation_unknown_features ℕ _).2.2 (fun _ => none) ([], fun _ => 0) 3 rfl⟩

/-- C10: with `unk` mode on and a query consisting of a single feature
absent from the model, the zero-weight skip test for that feature reads the
local `feature_weight` before the program has assigned it (it is assigned
only in the known-feature branch), so the classifier's result depends on the
indeterminate initial contents of that local: initial value 0 yields cell 1,
initial value 1 yields cell 0, on identical inputs. -/
theorem nb_unknown_first_reads_uninitialized_weight :
    tweet_classify_naivebayes ⟨2, 1, true, false, 0, 0⟩ id (fun _ : ℕ => none)
      (fun c => if c = 1 then 2 else 1) (fun c => if c = 1 then 10 else 0)
      false 0 0 [5] = 1 ∧
    tweet_classify_naivebayes ⟨2, 1, true, false, 0, 0⟩ id (fun _ : ℕ => none)
      (fun c => if c = 1 then 2 else 1) (fun c => if c = 1 then 10 else 0)
      false 1 0 [5] = 0 := by
  have hrange : List.range (cells 2) = [0, 1] := rfl
  constructor
  · show nb_argmax 2 _ _ = 1
    rw [nb_argmax, hrange]
    simp only [List.foldl_cons, List.foldl_nil, nb_argmax_step, skip_cell_resfalse,
      nb_total, nb_step, nb_cell_update]
    norm_num
  · show nb_argmax 2 _ _ = 0
    rw [nb_argmax, hrange]
    simp only [List.foldl_cons, List.foldl_nil, nb_argmax_step, skip_cell_resfalse,
      nb_total, nb_step]
    norm_num [nb_cell_update, skip_cell_resfalse, matrix_init, unkBit, cells]
